import Mathlib

/-!
Verification development for the `excel2JSON` conversion pipeline
(`src/src-tauri/src/lib.rs`).

The Rust source is shallowly embedded as executable Lean definitions:
spreadsheet cells become an inductive `Cell`, floating-point cell values are
modelled by rationals (every finite `f64` is a rational, and all branch
conditions in the source are exact predicates on the represented value),
fallible code returns `Except String`, and the file-system / progress-event
side effects of the `convert_excel_to_json` command are modelled as an
explicit event trace interpreted by a small file-system semantics.
-/

/-- The opening brace character (written via its code point so that brace
characters never appear literally in the file). -/
def braceOpen : Char := Char.ofNat 123

/-- The closing brace character. -/
def braceClose : Char := Char.ofNat 125

/-- Embedding of `calamine::DataType`: one spreadsheet cell value.
`Float`, `DateTime` and `Duration` carry the represented real value as a
rational (exact for every finite `f64`). -/
inductive Cell where
  | String : String → Cell
  | Float : ℚ → Cell
  | Int : ℤ → Cell
  | Bool : Bool → Cell
  | DateTime : ℚ → Cell
  | Duration : ℚ → Cell
  | DateTimeIso : String → Cell
  | DurationIso : String → Cell
  | Error : String → Cell
  | Empty : Cell
deriving DecidableEq, Repr

/-- Rust `as i64` conversion of a (finite) float: truncation toward zero.
For a rational `num/den` this is T-division of `num` by `den`. -/
def ratTrunc (q : ℚ) : ℤ := Int.tdiv q.num (q.den : ℤ)

/-- Days-since-1970-01-01 to civil date `(year, month, day)`; proleptic
Gregorian calendar, the arithmetic used by `chrono::NaiveDate`. -/
def civilFromDays (z0 : ℤ) : ℤ × ℤ × ℤ :=
  let z := z0 + 719468
  let era := Int.fdiv z 146097
  let doe := z - era * 146097
  let yoe := Int.fdiv (doe - Int.fdiv doe 1460 + Int.fdiv doe 36524 - Int.fdiv doe 146096) 365
  let y := yoe + era * 400
  let doy := doe - (365 * yoe + Int.fdiv yoe 4 - Int.fdiv yoe 100)
  let mp := Int.fdiv (5 * doy + 2) 153
  let d := doy - Int.fdiv (153 * mp + 2) 5 + 1
  let m := mp + (if mp < 10 then 3 else -9)
  (y + (if m ≤ 2 then 1 else 0), m, d)

/-- Zero-pad to two digits (chrono `%m`, `%d`, `%H`, `%M`, `%S` and Rust
`{:02}` formatting, for the nonnegative values that occur). -/
def pad2 (n : ℤ) : String :=
  if 0 ≤ n ∧ n < 10 then "0" ++ toString n else toString n

/-- Zero-pad a year to four digits (chrono `%Y`). -/
def pad4 (n : ℤ) : String :=
  if n < 0 then toString n
  else if n < 10 then "000" ++ toString n
  else if n < 100 then "00" ++ toString n
  else if n < 1000 then "0" ++ toString n
  else toString n

/-- Render a civil date as `YYYY-MM-DD` (chrono format string `%Y-%m-%d`). -/
def formatYMD (ymd : ℤ × ℤ × ℤ) : String :=
  pad4 ymd.1 ++ "-" ++ pad2 ymd.2.1 ++ "-" ++ pad2 ymd.2.2

/-- The day number of the epoch `1899-12-30` relative to `1970-01-01`:
`NaiveDate::from_ymd_opt(1899, 12, 30)` is day `-25569`. -/
def excelEpochDay : ℤ := -25569

/-- `1899-12-30 + serial` days, rendered `YYYY-MM-DD`: the embedding of
`base_date + ChronoDuration::days(serial)` followed by `%Y-%m-%d`. -/
def serialDateString (serial : ℤ) : String :=
  formatYMD (civilFromDays (excelEpochDay + serial))

/-- Stand-in for Rust's `f64::to_string()` (the default decimal rendering).
No claim inspects the digits this produces, only which branch selects it. -/
def float_to_string (q : ℚ) : String := toString q

/-- Embedding of `get_cell_string` (lib.rs lines 125-162), the Cell
Normalizer.  `f.fract() == 0.0` holds exactly when the represented rational
has denominator 1. -/
def get_cell_string (cell : Cell) : String :=
  match cell with
  | Cell.String s => s
  | Cell.Float f =>
      if 30000 < f ∧ f < 70000 then
        serialDateString (ratTrunc f)
      else if f.den = 1 then
        toString f.num
      else
        float_to_string f
  | Cell.Int i => toString i
  | Cell.Bool b => if b then "true" else "false"
  | Cell.DateTime dt =>
      let days := ratTrunc dt
      let seconds := ratTrunc ((dt - (days : ℚ)) * 86400)
      let total := days * 86400 + seconds
      let dayPart := Int.fdiv total 86400
      let rem := Int.emod total 86400
      formatYMD (civilFromDays (excelEpochDay + dayPart)) ++ " " ++
        pad2 (Int.fdiv rem 3600) ++ ":" ++ pad2 (Int.fdiv (Int.emod rem 3600) 60) ++ ":" ++
        pad2 (Int.emod rem 60)
  | Cell.Duration d =>
      let total_seconds := ratTrunc (d * 86400)
      let hours := Int.tdiv total_seconds 3600
      let minutes := Int.tdiv (Int.tmod total_seconds 3600) 60
      let seconds := Int.tmod total_seconds 60
      pad2 hours ++ ":" ++ pad2 minutes ++ ":" ++ pad2 seconds
  | Cell.DateTimeIso s => s
  | Cell.DurationIso s => s
  | Cell.Error e => "Error: " ++ e
  | Cell.Empty => ""

/-- The error message of `check_placeholders`. -/
def cpErrMsg (value : String) : String := "占位符不完整: " ++ value

/-- The character loop of `check_placeholders` (lib.rs lines 36-54): a depth
counter `stack`, incremented at an opening brace, checked-then-decremented at
a closing brace, all other characters ignored; a nonzero counter at the end
of the string is an error. -/
def cpGo (value : String) : List Char → ℕ → Except String Unit
  | [], d => if d ≠ 0 then Except.error (cpErrMsg value) else Except.ok ()
  | c :: rest, d =>
      if c = braceOpen then cpGo value rest (d + 1)
      else if c = braceClose then
        if d = 0 then Except.error (cpErrMsg value) else cpGo value rest (d - 1)
      else cpGo value rest d

/-- Embedding of `check_placeholders` (lib.rs lines 36-54). -/
def check_placeholders (value : String) : Except String Unit :=
  cpGo value value.data 0

/-- Whether an `Except` is a success. -/
def exceptOk {ε α : Type} : Except ε α → Bool
  | Except.ok _ => true
  | Except.error _ => false

/-- Signed brace depth contribution of a character list: `+1` per opening
brace, `-1` per closing brace, `0` for every other character. -/
def braceDepth : List Char → ℤ
  | [] => 0
  | c :: rest =>
      (if c = braceOpen then 1 else if c = braceClose then -1 else 0) + braceDepth rest

/-- Embedding of the `SheetConfig` struct (lib.rs lines 57-61). -/
structure SheetConfig where
  name : String
  sheet_type : Option String
deriving DecidableEq, Repr

/-- Embedding of the `LanguageConfig` struct (lib.rs lines 63-66). -/
structure LanguageConfig where
  code : String
deriving DecidableEq, Repr

deriving instance DecidableEq for Except

/-- A workbook: named sheets, each either a readable rectangular range of
cells (rows) or a read error (calamine's `Option<Result<Range>>` lookup). -/
structure Workbook where
  sheets : List (String × Except String (List (List Cell)))
deriving DecidableEq, Repr

/-- `workbook.worksheet_range(name)`: `none` when no sheet has the name,
`some (error e)` when the sheet exists but cannot be read. -/
def worksheetRange (wb : Workbook) (name : String) : Option (Except String (List (List Cell))) :=
  List.lookup name wb.sheets

/-- `IndexMap::insert` on an association list: an existing key has its value
replaced in place, a new key is appended at the end.  The `json` crate's
object assignment `obj[k] = v` has the same semantics. -/
def imInsert {α β : Type} [BEq α] (m : List (α × β)) (k : α) (v : β) : List (α × β) :=
  if m.any (fun p => p.1 == k) then
    m.map (fun p => if p.1 == k then (k, v) else p)
  else m ++ [(k, v)]

/-- One fold step of the row loop of `read_language_configs_from_excel`
(lib.rs lines 79-86): skip empty rows and rows whose first cell normalizes
to the empty string. -/
def readLangRow (configs : List LanguageConfig) (row : List Cell) : List LanguageConfig :=
  match row with
  | [] => configs
  | c :: _ =>
      let lang_code := get_cell_string c
      if lang_code.isEmpty then configs else configs ++ [⟨lang_code⟩]

/-- Embedding of `read_language_configs_from_excel` (lib.rs lines 69-89). -/
def read_language_configs_from_excel (wb : Workbook) : Except String (List LanguageConfig) :=
  match worksheetRange wb "导出语言管理" with
  | none => Except.error ("未找到工作表: " ++ "导出语言管理")
  | some (Except.error e) => Except.error e
  | some (Except.ok range) => Except.ok (range.foldl readLangRow [])

/-- Strip leading and trailing whitespace characters from a character
list. -/
def trimChars (cs : List Char) : List Char :=
  (((cs.dropWhile Char.isWhitespace).reverse.dropWhile Char.isWhitespace)).reverse

/-- Embedding of Rust's `str::trim`.  Rust trims the Unicode `White_Space`
set; this model trims the ASCII whitespace characters, which agrees with
Rust on every input the pipeline distinguishes (the stored marker is only
ever compared to the non-blank literal `"root"`). -/
def rustTrim (s : String) : String := String.mk (trimChars s.data)

/-- Parse one sheet-registry row into a `SheetConfig` (lib.rs lines 107-119):
first cell is the name, a present-but-blank (whitespace-only after `trim`)
second cell is treated as absent. -/
def parseSheetRow (row : List Cell) : SheetConfig :=
  let name := get_cell_string (row.getD 0 Cell.Empty)
  let sheet_type :=
    if 1 < row.length then
      let s := get_cell_string (row.getD 1 Cell.Empty)
      if (rustTrim s).isEmpty then none else some s
    else none
  ⟨name, sheet_type⟩

/-- One fold step of the row loop of `read_sheet_configs_from_excel`
(lib.rs lines 102-120): rows with no cells are skipped (`row.len() < 1`),
every other row is parsed and appended. -/
def readSheetRow (configs : List SheetConfig) (row : List Cell) : List SheetConfig :=
  if row.length < 1 then configs else configs ++ [parseSheetRow row]

/-- Embedding of `read_sheet_configs_from_excel` (lib.rs lines 91-123). -/
def read_sheet_configs_from_excel (wb : Workbook) : Except String (List SheetConfig) :=
  match worksheetRange wb "导出sheet管理" with
  | none => Except.error ("未找到工作表: " ++ "导出sheet管理")
  | some (Except.error e) => Except.error e
  | some (Except.ok range) => Except.ok (range.foldl readSheetRow [])

/-- The mode test used at merge time (lib.rs line 337):
`sheet_config.sheet_type.as_deref() == Some("root")`. -/
def isRoot (cfg : SheetConfig) : Bool := cfg.sheet_type == some "root"

/-- A per-sheet key → value table for one language (`IndexMap<String, String>`). -/
abbrev Table := List (String × String)

/-- The per-language map from sheet name to its table
(`IndexMap<String, IndexMap<String, String>>`). -/
abbrev SheetDataMap := List (String × Table)

/-- Top-level values of the per-language JSON document: translation strings
(from root-mode sheets) or nested objects (from nested-mode sheets). -/
inductive JValue where
  | jstr : String → JValue
  | jobj : List (String × String) → JValue
deriving DecidableEq, Repr

/-- The per-language JSON document (`json::JsonValue` object). -/
abbrev ExportDocument := List (String × JValue)

/-- The merge loop body (lib.rs lines 335-348): a sheet absent from
`sheet_data_map` contributes nothing; a root-mode sheet's pairs are copied
into the document's top level; any other sheet's table is rebuilt as an
object and stored under the sheet's name. -/
def mergeStep (m : SheetDataMap) (final_json : ExportDocument) (cfg : SheetConfig) : ExportDocument :=
  match List.lookup cfg.name m with
  | none => final_json
  | some temp =>
      if isRoot cfg then
        temp.foldl (fun fj kv => imInsert fj kv.1 (JValue.jstr kv.2)) final_json
      else
        imInsert final_json cfg.name
          (JValue.jobj (temp.foldl (fun obj kv => imInsert obj kv.1 kv.2) []))

/-- The per-language merge (lib.rs lines 333-349): iterate the sheet registry
in order, folding `mergeStep` into an initially empty document. -/
def mergeSheets (sheet_configs : List SheetConfig) (m : SheetDataMap) : ExportDocument :=
  sheet_configs.foldl (mergeStep m) []

/-- Log levels of progress events (lib.rs lines 16-23). -/
inductive LogType where
  | Info | Success | Warning | Error
deriving DecidableEq, Repr

/-- A path as a list of components (`PathBuf`). -/
abbrev FPath := List String

/-- Render a path for display in messages. -/
def pathStr (p : FPath) : String := String.intercalate "/" p

/-- The observable actions of one export run: progress events and
file-system effects, in program order. -/
inductive Event where
  | progress : String → LogType → Event
  | createDir : FPath → Event
  | writeFile : FPath → String → Event
  | removeDir : FPath → Event
  | zipDir : FPath → FPath → Event
deriving DecidableEq, Repr

/-- The state of the disk: directories, regular files with contents, and
produced archives with their entry-name lists. -/
structure FS where
  dirs : List FPath
  files : List (FPath × String)
  archives : List (FPath × List String)
deriving DecidableEq, Repr

/-- Interpret one event against the disk.  `removeDir` removes the directory
and everything below it; `zipDir src dst` records an archive whose entries
are all files below `src`, named relative to `src`'s parent (the walk of
`zip_directory`, lib.rs lines 165-191). -/
def applyEvent (fs : FS) : Event → FS
  | Event.progress _ _ => fs
  | Event.createDir p => { fs with dirs := fs.dirs ++ [p] }
  | Event.writeFile p c => { fs with files := imInsert fs.files p c }
  | Event.removeDir p =>
      { fs with
        dirs := fs.dirs.filter (fun x => !(x.take p.length == p)),
        files := fs.files.filter (fun f => !(f.1.take p.length == p)) }
  | Event.zipDir src dst =>
      { fs with
        archives := fs.archives ++
          [(dst, (fs.files.filter (fun f => f.1.take src.length == src)).map
              (fun f => pathStr (f.1.drop (src.length - 1))))] }

/-- Fold a trace of events over a disk state. -/
def applyEvents (fs : FS) (evs : List Event) : FS := evs.foldl applyEvent fs

/-- The empty disk. -/
def emptyFS : FS := ⟨[], [], []⟩

/-- The disk state after an export run's complete trace. -/
def finalFS (evs : List Event) : FS := applyEvents emptyFS evs

/-- The empty-value warning message (lib.rs lines 300-311). -/
def emptyWarnMsg (sheet : String) (rowNum : ℕ) (code key : String) : String :=
  "空值警告 Sheet: \x27" ++ sheet ++ "\x27 行: " ++ toString rowNum ++
    " 列: \x27" ++ code ++ "\x27 Key: \x27" ++ key ++ "\x27"

/-- The fatal placeholder-failure message (lib.rs lines 315-322). -/
def abortMsg (sheet : String) (rowNum : ℕ) (key value err : String) : String :=
  "占位符校验失败 Sheet: \x27" ++ sheet ++ "\x27 行: " ++ toString rowNum ++
    " Key: \x27" ++ key ++ "\x27 值: \x27" ++ value ++ "\x27 错误: " ++ err

/-- The row key: `get_cell_string(&row[0])` (lib.rs line 289). -/
def rowKey (row : List Cell) : String := get_cell_string (row.getD 0 Cell.Empty)

/-- The row value (lib.rs lines 294-298): the resolved language column's
cell, or the empty string when the row is shorter than that column index. -/
def rowValue (lang_col : ℕ) (row : List Cell) : String :=
  if lang_col < row.length then get_cell_string (row.getD lang_col Cell.Empty) else ""

/-- The empty-value warning events of one row (lib.rs lines 300-312). -/
def rowWarns (sheetName : String) (row_idx : ℕ) (code key value : String) : List Event :=
  if value.isEmpty then
    [Event.progress (emptyWarnMsg sheetName (row_idx + 1) code key) LogType.Warning]
  else []

/-- The data-row loop of a content sheet (lib.rs lines 288-328), over the
enumerated rows after the header.  A row whose first cell normalizes to
empty is skipped outright; otherwise the value is the resolved language
column's cell, or the empty string when the row is shorter than that column
index; an empty value emits a warning; a placeholder failure aborts with the
events emitted so far; otherwise the pair is inserted into the table. -/
def processSheetRows (sheetName code : String) (lang_col : ℕ) (temp : Table) :
    List (ℕ × List Cell) → List Event × Except String Table
  | [] => ([], Except.ok temp)
  | (row_idx, row) :: rest =>
      if (rowKey row).isEmpty then processSheetRows sheetName code lang_col temp rest
      else
        match check_placeholders (rowValue lang_col row) with
        | Except.error err =>
            (rowWarns sheetName row_idx code (rowKey row) (rowValue lang_col row),
             Except.error (abortMsg sheetName (row_idx + 1) (rowKey row) (rowValue lang_col row) err))
        | Except.ok _ =>
            (rowWarns sheetName row_idx code (rowKey row) (rowValue lang_col row) ++
               (processSheetRows sheetName code lang_col
                 (imInsert temp (rowKey row) (rowValue lang_col row)) rest).1,
             (processSheetRows sheetName code lang_col
               (imInsert temp (rowKey row) (rowValue lang_col row)) rest).2)

/-- One content sheet for one language (lib.rs lines 252-331): a missing or
unreadable sheet is a warning and is skipped; an empty range, or a header
row with no column normalizing to the language code, is skipped silently;
otherwise the data rows are scanned and the resulting table is inserted into
`sheet_data_map` under the sheet's name. -/
def processSheetForLang (wb : Workbook) (code : String) (m : SheetDataMap)
    (cfg : SheetConfig) : List Event × Except String SheetDataMap :=
  match worksheetRange wb cfg.name with
  | none => ([Event.progress ("⚠️ 找不到工作表: " ++ cfg.name) LogType.Warning], Except.ok m)
  | some (Except.error e) =>
      ([Event.progress ("⚠️ 读取工作表 " ++ cfg.name ++ " 失败: " ++ e) LogType.Warning], Except.ok m)
  | some (Except.ok range) =>
      match range with
      | [] => ([], Except.ok m)
      | header :: rrest =>
          match List.findIdx? (fun c => get_cell_string c == code) header with
          | none => ([], Except.ok m)
          | some lang_col =>
              match (processSheetRows cfg.name code lang_col [] ((header :: rrest).enum.drop 1)).2 with
              | Except.error msg =>
                  ((processSheetRows cfg.name code lang_col [] ((header :: rrest).enum.drop 1)).1,
                   Except.error msg)
              | Except.ok temp =>
                  ((processSheetRows cfg.name code lang_col [] ((header :: rrest).enum.drop 1)).1,
                   Except.ok (imInsert m cfg.name temp))

/-- The sheet loop for one language (lib.rs lines 250-331), threading
`sheet_data_map` and propagating a placeholder abort. -/
def scanSheets (wb : Workbook) (code : String) (m : SheetDataMap) :
    List SheetConfig → List Event × Except String SheetDataMap
  | [] => ([], Except.ok m)
  | cfg :: rest =>
      match (processSheetForLang wb code m cfg).2 with
      | Except.error msg => ((processSheetForLang wb code m cfg).1, Except.error msg)
      | Except.ok m' =>
          ((processSheetForLang wb code m cfg).1 ++ (scanSheets wb code m' rest).1,
           (scanSheets wb code m' rest).2)

/-- Render a top-level document value. -/
def jvalRender : JValue → String
  | JValue.jstr s => "\x22" ++ s ++ "\x22"
  | JValue.jobj kvs =>
      "\x7b" ++ String.intercalate "," (kvs.map (fun kv => "\x22" ++ kv.1 ++ "\x22:" ++ "\x22" ++ kv.2 ++ "\x22")) ++ "\x7d"

/-- Serialization of the per-language document (`final_json.pretty(2)`,
lib.rs line 352).  The exact whitespace and escaping of the `json` crate are
not modelled; no claim inspects the serialized bytes. -/
def prettyDoc (doc : ExportDocument) : String :=
  "\x7b" ++ String.intercalate "," (doc.map (fun kv => "\x22" ++ kv.1 ++ "\x22:" ++ jvalRender kv.2)) ++ "\x7d"

/-- One language iteration of the main loop (lib.rs lines 243-361): progress
event, sheet scan, merge, then writing `<code>.json` into the output
directory.  Returns the written path. -/
def processLanguage (wb : Workbook) (sheet_configs : List SheetConfig) (output_dir : FPath)
    (code : String) : List Event × Except String FPath :=
  match (scanSheets wb code [] sheet_configs).2 with
  | Except.error msg =>
      (Event.progress ("正在处理语言: " ++ code) LogType.Info ::
         (scanSheets wb code [] sheet_configs).1,
       Except.error msg)
  | Except.ok m =>
      (Event.progress ("正在处理语言: " ++ code) LogType.Info ::
         (scanSheets wb code [] sheet_configs).1 ++
         [Event.writeFile (output_dir ++ [code ++ ".json"]) (prettyDoc (mergeSheets sheet_configs m)),
          Event.progress ("✅ 已导出语言文件: " ++ pathStr (output_dir ++ [code ++ ".json"]))
            LogType.Success],
       Except.ok (output_dir ++ [code ++ ".json"]))

/-- The language loop (lib.rs lines 243-361), collecting `all_jsons`. -/
def runLanguages (wb : Workbook) (sheet_configs : List SheetConfig) (output_dir : FPath) :
    List LanguageConfig → List Event × Except String (List FPath)
  | [] => ([], Except.ok [])
  | l :: rest =>
      match (processLanguage wb sheet_configs output_dir l.code).2 with
      | Except.error msg =>
          ((processLanguage wb sheet_configs output_dir l.code).1, Except.error msg)
      | Except.ok p =>
          match (runLanguages wb sheet_configs output_dir rest).2 with
          | Except.error msg =>
              ((processLanguage wb sheet_configs output_dir l.code).1 ++
                 (runLanguages wb sheet_configs output_dir rest).1,
               Except.error msg)
          | Except.ok ps =>
              ((processLanguage wb sheet_configs output_dir l.code).1 ++
                 (runLanguages wb sheet_configs output_dir rest).1,
               Except.ok (p :: ps))

/-- Host-environment parameters of one run: the argument path, whether it
exists and parses as a workbook, and the components of the output location
(`parent`, file stem, and the wall-clock timestamp string). -/
structure RunConfig where
  path : String
  fileExists : Bool
  openOk : Bool
  openErr : String
  parent : String
  stem : String
  timeStr : String
deriving DecidableEq, Repr

/-- `format!("{}_{}", stem, time_str)` (lib.rs line 231). -/
def folderName (cfg : RunConfig) : String := cfg.stem ++ "_" ++ cfg.timeStr

/-- The per-run output directory `parent.join(folder)` (lib.rs line 232). -/
def outputDirOf (cfg : RunConfig) : FPath := [cfg.parent, folderName cfg]

/-- The dot character. -/
def dotChar : Char := Char.ofNat 46

/-- Split a character list at every dot (like `splitOn "."`). -/
def splitDot : List Char → List (List Char)
  | [] => [[]]
  | c :: rest =>
      match splitDot rest with
      | [] => if c = dotChar then [[], [c]] else [[c]]
      | h :: t => if c = dotChar then [] :: h :: t else (c :: h) :: t

/-- Join character lists with dots. -/
def joinDot : List (List Char) → List Char
  | [] => []
  | [x] => x
  | x :: y :: t => x ++ dotChar :: joinDot (y :: t)

/-- `PathBuf::set_extension("zip")` on a file name: the portion after the
last dot is replaced when the name has an extension, else `.zip` is
appended (a name with no dot, or whose only dot is a leading dot, has no
extension). -/
def setExtZip (name : String) : String :=
  match splitDot name.data with
  | [] => name ++ ".zip"
  | [_] => name ++ ".zip"
  | [[], _] => name ++ ".zip"
  | parts => String.mk (joinDot parts.dropLast) ++ ".zip"

/-- Whether a trace contains any file-write event. -/
def hasWriteEvent (evs : List Event) : Bool :=
  evs.any (fun e => match e with | Event.writeFile _ _ => true | _ => false)

/-- `output_dir.with_extension("zip")` (lib.rs line 364). -/
def zipPathOf (cfg : RunConfig) : FPath := [cfg.parent, setExtZip (folderName cfg)]

/-- The success return value (lib.rs lines 378-382); `{:?}` on a `PathBuf`
renders the path quoted. -/
def mkSummary (n : ℕ) (zip_path : FPath) : String :=
  "完成导出 " ++ toString n ++ " 个语言文件并已压缩为 \x22" ++ pathStr zip_path ++ "\x22"

/-- The language/sheet-count progress message (lib.rs lines 214-222). -/
def countsMsg (nl ns : ℕ) : String :=
  "读取到 " ++ toString nl ++ " 个语言, " ++ toString ns ++ " 个工作表"

/-- The three progress events up to the successful workbook open
(lib.rs lines 195-207). -/
def preludeEvents (cfg : RunConfig) : List Event :=
  [Event.progress ("开始处理文件: " ++ cfg.path) LogType.Info,
   Event.progress "正在打开 Excel 文件..." LogType.Info,
   Event.progress "Excel 文件已成功打开" LogType.Success]

/-- The count report and output-directory creation (lib.rs lines 214-239). -/
def setupEvents (cfg : RunConfig) (lang_configs : List LanguageConfig)
    (sheet_configs : List SheetConfig) : List Event :=
  [Event.progress (countsMsg lang_configs.length sheet_configs.length) LogType.Info,
   Event.createDir (outputDirOf cfg),
   Event.progress ("导出文件夹创建完成: " ++ pathStr (outputDirOf cfg)) LogType.Success]

/-- Embedding of the `convert_excel_to_json` command (lib.rs lines 193-383):
the complete run, returning its event trace in program order together with
its `Result<String, String>`.  On a placeholder abort the output directory
is removed and the error is returned (lib.rs lines 314-325); on success the
directory is zipped, then removed, and the summary returned. -/
def convert_excel_to_json (cfg : RunConfig) (wb : Workbook) : List Event × Except String String :=
  if cfg.fileExists = false then
    ([Event.progress ("开始处理文件: " ++ cfg.path) LogType.Info,
      Event.progress ("文件不存在: " ++ cfg.path) LogType.Error],
     Except.error ("文件不存在: " ++ cfg.path))
  else if cfg.openOk = false then
    ([Event.progress ("开始处理文件: " ++ cfg.path) LogType.Info,
      Event.progress "正在打开 Excel 文件..." LogType.Info],
     Except.error ("打开文件失败: " ++ cfg.openErr))
  else
    match read_language_configs_from_excel wb with
    | Except.error e => (preludeEvents cfg, Except.error ("读取语言配置失败: " ++ e))
    | Except.ok lang_configs =>
        match read_sheet_configs_from_excel wb with
        | Except.error e => (preludeEvents cfg, Except.error e)
        | Except.ok sheet_configs =>
            match (runLanguages wb sheet_configs (outputDirOf cfg) lang_configs).2 with
            | Except.error msg =>
                (preludeEvents cfg ++ setupEvents cfg lang_configs sheet_configs ++
                   (runLanguages wb sheet_configs (outputDirOf cfg) lang_configs).1 ++
                   [Event.removeDir (outputDirOf cfg)],
                 Except.error msg)
            | Except.ok all_jsons =>
                (preludeEvents cfg ++ setupEvents cfg lang_configs sheet_configs ++
                   (runLanguages wb sheet_configs (outputDirOf cfg) lang_configs).1 ++
                   [Event.progress "正在压缩导出文件夹..." LogType.Info,
                    Event.zipDir (outputDirOf cfg) (zipPathOf cfg),
                    Event.progress ("✅ 已压缩文件夹为: " ++ pathStr (zipPathOf cfg)) LogType.Success,
                    Event.removeDir (outputDirOf cfg)],
                 Except.ok (mkSummary all_jsons.length (zipPathOf cfg)))

/-- Whether an event is a pure progress notification. -/
def isProgress : Event → Bool
  | Event.progress _ _ => true
  | _ => false

/-- Whether an event is either a progress notification or a file write whose
path lies below the directory `d`. -/
def evUnder (d : FPath) : Event → Bool
  | Event.progress _ _ => true
  | Event.writeFile p _ => p.take d.length == d
  | _ => false

/-- Whether a character is one of the two brace characters. -/
def isBraceChar (c : Char) : Bool := c == braceOpen || c == braceClose

/-- The two export modes named by the spec for a registry sheet. -/
inductive Mode where
  | root | nested
deriving DecidableEq, Repr

/-- Modelled from the spec (section 6): "value `root` selects flat-merge,
anything else/absent selects nested". -/
def modeOf (cfg : SheetConfig) : Mode :=
  if cfg.sheet_type == some "root" then Mode.root else Mode.nested

/-- Modelled from the spec (section 4.4, merge step): for a sheet present in
the table map, mode `root` copies all its key-value pairs directly into the
document's top level, mode `nested` places the sheet's entire key-value
table as an object value under the sheet's name; a sheet without a table
contributes nothing. -/
def specMergeStep (m : SheetDataMap) (doc : ExportDocument) (cfg : SheetConfig) : ExportDocument :=
  match List.lookup cfg.name m with
  | none => doc
  | some table =>
      match modeOf cfg with
      | Mode.root => table.foldl (fun d kv => imInsert d kv.1 (JValue.jstr kv.2)) doc
      | Mode.nested => imInsert doc cfg.name (JValue.jobj table)

/-- Modelled from the spec (section 4.4): "iterate sheets in registry order"
folding the merge step into an initially empty document. -/
def specMergeDoc (cfgs : List SheetConfig) (m : SheetDataMap) : ExportDocument :=
  cfgs.foldl (specMergeStep m) []

/-- Rebuild an association list by re-inserting its pairs in order (the
construction of `sheet_obj` in the nested branch, lib.rs lines 342-345). -/
def imRefold (l : Table) : Table := l.foldl (fun obj kv => imInsert obj kv.1 kv.2) []

/-- A fixed host configuration for the concrete runs: input `book.xlsx`
exists and opens, output parent directory `p`, stem `out`, timestamp `t`. -/
def cfgT : RunConfig := ⟨"book.xlsx", true, true, "", "p", "out", "t"⟩

/-- Two languages `en`, `fr`; one root-mode sheet `S` whose `fr` column
holds a value with an unmatched opening brace. -/
def wbC1 : Workbook := ⟨[
  ("导出语言管理", Except.ok [[Cell.String "en"], [Cell.String "fr"]]),
  ("导出sheet管理", Except.ok [[Cell.String "S", Cell.String "root"]]),
  ("S", Except.ok [[Cell.String "key", Cell.String "en", Cell.String "fr"],
                   [Cell.String "g", Cell.String "hi",
                    Cell.String ("oops" ++ String.mk [braceOpen])]])]⟩

/-- A sheet registry whose single row has an empty first cell and `root` in
the second column. -/
def wbC3 : Workbook := ⟨[("导出sheet管理", Except.ok [[Cell.Empty, Cell.String "root"]])]⟩

/-- A workbook with the duplicate language registry `en`, `en` and an empty
sheet registry. -/
def wbC8 : Workbook := ⟨[
  ("导出语言管理", Except.ok [[Cell.String "en"], [Cell.String "en"]]),
  ("导出sheet管理", Except.ok [])]⟩

/-- A single content sheet `S` whose header matches language `en` but whose
only data row has an empty first cell, so it contributes zero pairs. -/
def wbC10 : Workbook := ⟨[
  ("S", Except.ok [[Cell.String "key", Cell.String "en"],
                   [Cell.Empty, Cell.String "x"]])]⟩

theorem exceptOk_iff (e : Except String Unit) : exceptOk e = true ↔ e = Except.ok () := by
  cases e with
  | ok u => cases u; simp [exceptOk]
  | error m => simp [exceptOk]

theorem braceDepth_cons (c : Char) (l : List Char) :
    braceDepth (c :: l) =
      (if c = braceOpen then 1 else if c = braceClose then -1 else 0) + braceDepth l := rfl

theorem forall_take_cons (c : Char) (rest : List Char) (x : ℤ) :
    (∀ n : ℕ, 0 ≤ x + braceDepth ((c :: rest).take n)) ↔
      (0 ≤ x ∧ ∀ n : ℕ, 0 ≤
        (x + (if c = braceOpen then 1 else if c = braceClose then -1 else 0)) +
          braceDepth (rest.take n)) := by
  constructor
  · intro h
    constructor
    · have h0 := h 0
      simpa [braceDepth] using h0
    · intro n
      have hn := h (n + 1)
      rw [List.take_succ_cons, braceDepth_cons] at hn
      omega
  · rintro ⟨hx, h⟩ n
    cases n with
    | zero => simpa [braceDepth] using hx
    | succ n =>
        have hn := h n
        rw [List.take_succ_cons, braceDepth_cons]
        omega

theorem cpGo_isOk_iff (v : String) :
    ∀ (cs : List Char) (d : ℕ), exceptOk (cpGo v cs d) = true ↔
      ((∀ n : ℕ, 0 ≤ (d : ℤ) + braceDepth (cs.take n)) ∧ (d : ℤ) + braceDepth cs = 0) := by
  intro cs
  induction cs with
  | nil =>
      intro d
      constructor
      · intro h
        rw [cpGo] at h
        by_cases hd : d = 0
        · subst hd; simp [braceDepth]
        · simp [hd, exceptOk] at h
      · rintro ⟨-, h2⟩
        simp [braceDepth] at h2
        simp [cpGo, h2, exceptOk]
  | cons c rest ih =>
      intro d
      by_cases hc : c = braceOpen
      · rw [cpGo, if_pos hc, ih (d + 1), forall_take_cons, braceDepth_cons, if_pos hc]
        constructor
        · rintro ⟨h1, h2⟩
          refine ⟨⟨by positivity, fun n => ?_⟩, by push_cast at h2 ⊢; omega⟩
          have := h1 n
          push_cast at this ⊢
          omega
        · rintro ⟨⟨-, h1⟩, h2⟩
          refine ⟨fun n => ?_, by push_cast at h2 ⊢; omega⟩
          have := h1 n
          push_cast at this ⊢
          omega
      · by_cases hcc : c = braceClose
        · rw [cpGo, if_neg hc, if_pos hcc]
          cases d with
          | zero =>
              constructor
              · intro h
                simp [exceptOk] at h
              · rintro ⟨h1, -⟩
                have h0 := h1 1
                rw [List.take_succ_cons, List.take_zero, braceDepth_cons,
                  if_neg hc, if_pos hcc] at h0
                norm_num [braceDepth] at h0
          | succ d =>
              rw [if_neg (by omega : ¬(d + 1 = 0))]
              simp only [Nat.add_sub_cancel]
              rw [ih d, forall_take_cons, braceDepth_cons, if_neg hc, if_pos hcc]
              constructor
              · rintro ⟨h1, h2⟩
                refine ⟨⟨by positivity, fun n => ?_⟩, by push_cast at h2 ⊢; omega⟩
                have := h1 n
                push_cast at this ⊢
                omega
              · rintro ⟨⟨-, h1⟩, h2⟩
                refine ⟨fun n => ?_, by push_cast at h2 ⊢; omega⟩
                have := h1 n
                push_cast at this ⊢
                omega
        · rw [cpGo, if_neg hc, if_neg hcc, ih d, forall_take_cons, braceDepth_cons,
            if_neg hc, if_neg hcc]
          constructor
          · rintro ⟨h1, h2⟩
            exact ⟨⟨by positivity, fun n => by have := h1 n; omega⟩, by omega⟩
          · rintro ⟨⟨-, h1⟩, h2⟩
            exact ⟨fun n => by have := h1 n; omega, by omega⟩

theorem cpGo_filter (v w : String) :
    ∀ (cs : List Char) (d : ℕ),
      exceptOk (cpGo v (cs.filter isBraceChar) d) = exceptOk (cpGo w cs d) := by
  intro cs
  induction cs with
  | nil => intro d; by_cases hd : d = 0 <;> simp [cpGo, hd, exceptOk]
  | cons c rest ih =>
      intro d
      by_cases hc : c = braceOpen
      · have : isBraceChar c = true := by simp [isBraceChar, hc]
        rw [List.filter_cons_of_pos this, cpGo, if_pos hc, cpGo, if_pos hc, ih]
      · by_cases hcc : c = braceClose
        · have : isBraceChar c = true := by simp [isBraceChar, hcc]
          rw [List.filter_cons_of_pos this, cpGo, if_neg hc, if_pos hcc, cpGo,
            if_neg hc, if_pos hcc]
          by_cases hd : d = 0
          · simp [hd, exceptOk]
          · rw [if_neg hd, if_neg hd, ih]
        · have : isBraceChar c = false := by simp [isBraceChar, hc, hcc]
          rw [List.filter_cons_of_neg (by simp [this]), cpGo, if_neg hc, if_neg hcc, ih]

theorem applyEvents_nil (fs : FS) : applyEvents fs [] = fs := rfl

theorem applyEvents_cons (fs : FS) (e : Event) (evs : List Event) :
    applyEvents fs (e :: evs) = applyEvents (applyEvent fs e) evs := rfl

theorem applyEvents_append (fs : FS) (a b : List Event) :
    applyEvents fs (a ++ b) = applyEvents (applyEvents fs a) b :=
  List.foldl_append applyEvent fs a b

theorem applyEvents_progress :
    ∀ (evs : List Event) (fs : FS), (∀ e ∈ evs, isProgress e = true) → applyEvents fs evs = fs := by
  intro evs
  induction evs with
  | nil => intro fs _; rfl
  | cons e t ih =>
      intro fs h
      have he := h e (by simp)
      cases e with
      | progress m ty => rw [applyEvents_cons]; exact ih fs (fun x hx => h x (by simp [hx]))
      | createDir p => simp [isProgress] at he
      | writeFile p c => simp [isProgress] at he
      | removeDir p => simp [isProgress] at he
      | zipDir s d => simp [isProgress] at he

theorem imInsert_mem {α β : Type} [BEq α] {m : List (α × β)} {k : α} {v : β} :
    ∀ p ∈ imInsert m k v, p ∈ m ∨ p = (k, v) := by
  intro p hp
  unfold imInsert at hp
  split at hp
  · rcases List.mem_map.mp hp with ⟨q, hq, hqe⟩
    by_cases h : q.1 == k
    · rw [if_pos h] at hqe
      right; exact hqe.symm
    · rw [if_neg h] at hqe
      left; exact hqe ▸ hq
  · rcases List.mem_append.mp hp with h | h
    · left; exact h
    · right; simpa using h

theorem applyEvents_under (d : FPath) :
    ∀ (evs : List Event) (fs : FS), (∀ e ∈ evs, evUnder d e = true) →
      (applyEvents fs evs).dirs = fs.dirs ∧
      (applyEvents fs evs).archives = fs.archives ∧
      ∀ f ∈ (applyEvents fs evs).files, f ∈ fs.files ∨ f.1.take d.length = d := by
  intro evs
  induction evs with
  | nil => intro fs _; exact ⟨rfl, rfl, fun f hf => Or.inl hf⟩
  | cons e t ih =>
      intro fs h
      have he := h e (by simp)
      have ht : ∀ x ∈ t, evUnder d x = true := fun x hx => h x (by simp [hx])
      cases e with
      | progress m ty =>
          rw [applyEvents_cons]
          exact ih fs ht
      | createDir p => simp [evUnder] at he
      | writeFile p c =>
          rw [applyEvents_cons]
          have hp : p.take d.length = d := by
            have : (p.take d.length == d) = true := he
            exact eq_of_beq this
          rcases ih (applyEvent fs (Event.writeFile p c)) ht with ⟨h1, h2, h3⟩
          refine ⟨h1, h2, fun f hf => ?_⟩
          rcases h3 f hf with hmem | hund
          · rcases imInsert_mem f hmem with hm | hkv
            · exact Or.inl hm
            · right; rw [hkv]; exact hp
          · exact Or.inr hund
      | removeDir p => simp [evUnder] at he
      | zipDir s dd => simp [evUnder] at he

theorem processSheetRows_events (n c : String) (col : ℕ) :
    ∀ (rows : List (ℕ × List Cell)) (temp : Table),
      ∀ e ∈ (processSheetRows n c col temp rows).1, isProgress e = true := by
  intro rows
  induction rows with
  | nil => intro temp e he; simp [processSheetRows] at he
  | cons r t ih =>
      intro temp e he
      obtain ⟨i, row⟩ := r
      rw [processSheetRows] at he
      by_cases hk : (rowKey row).isEmpty
      · rw [if_pos hk] at he
        exact ih temp e he
      · rw [if_neg hk] at he
        rcases hcp : check_placeholders (rowValue col row) with err | u
        all_goals simp only [hcp] at he
        · rw [rowWarns] at he
          split at he <;> simp_all [isProgress]
        · rcases List.mem_append.mp he with hw | hrec
          · rw [rowWarns] at hw
            split at hw <;> simp_all [isProgress]
          · exact ih _ e hrec

theorem processSheetForLang_events (wb : Workbook) (code : String) (m : SheetDataMap)
    (cfg : SheetConfig) : ∀ e ∈ (processSheetForLang wb code m cfg).1, isProgress e = true := by
  intro e he
  rw [processSheetForLang] at he
  rcases hw : worksheetRange wb cfg.name with _ | er
  · simp only [hw] at he
    simp at he
    simp [he, isProgress]
  · rcases er with msg | range
    · simp only [hw] at he
      simp at he
      simp [he, isProgress]
    · simp only [hw] at he
      rcases range with _ | ⟨header, rrest⟩
      · simp at he
      · rcases hf : List.findIdx? (fun c => get_cell_string c == code) header with _ | lang_col
        all_goals simp only [hf] at he
        · simp at he
        · rcases hr : (processSheetRows cfg.name code lang_col [] ((header :: rrest).enum.drop 1)).2
            with msg | temp
          all_goals simp only [hr] at he
          · exact processSheetRows_events cfg.name code lang_col ((header :: rrest).enum.drop 1) [] e he
          · exact processSheetRows_events cfg.name code lang_col ((header :: rrest).enum.drop 1) [] e he

theorem scanSheets_events (wb : Workbook) (code : String) :
    ∀ (cfgs : List SheetConfig) (m : SheetDataMap),
      ∀ e ∈ (scanSheets wb code m cfgs).1, isProgress e = true := by
  intro cfgs
  induction cfgs with
  | nil => intro m e he; simp [scanSheets] at he
  | cons cfg t ih =>
      intro m e he
      rw [scanSheets] at he
      rcases hr : (processSheetForLang wb code m cfg).2 with msg | m'
      all_goals simp only [hr] at he
      · exact processSheetForLang_events wb code m cfg e he
      · rcases List.mem_append.mp he with h1 | h2
        · exact processSheetForLang_events wb code m cfg e h1
        · exact ih m' e h2

theorem processLanguage_events (wb : Workbook) (cfgs : List SheetConfig) (d : FPath)
    (code : String) : ∀ e ∈ (processLanguage wb cfgs d code).1, evUnder d e = true := by
  intro e he
  rw [processLanguage] at he
  rcases hr : (scanSheets wb code [] cfgs).2 with msg | m
  all_goals simp only [hr] at he
  · rcases List.mem_cons.mp he with h1 | h2
    · simp [h1, evUnder]
    · have := scanSheets_events wb code cfgs [] e h2
      cases e <;> simp_all [isProgress, evUnder]
  · rcases List.mem_cons.mp he with h1 | h2
    · simp [h1, evUnder]
    · rcases List.mem_append.mp h2 with h3 | h4
      · have := scanSheets_events wb code cfgs [] e h3
        cases e <;> simp_all [isProgress, evUnder]
      · simp at h4
        rcases h4 with h | h
        all_goals rw [h]
        · simp [evUnder, List.take_left]
        · simp [evUnder]

theorem runLanguages_events (wb : Workbook) (cfgs : List SheetConfig) (d : FPath) :
    ∀ (langs : List LanguageConfig),
      ∀ e ∈ (runLanguages wb cfgs d langs).1, evUnder d e = true := by
  intro langs
  induction langs with
  | nil => intro e he; simp [runLanguages] at he
  | cons l t ih =>
      intro e he
      rw [runLanguages] at he
      rcases hr : (processLanguage wb cfgs d l.code).2 with msg | p
      all_goals simp only [hr] at he
      · exact processLanguage_events wb cfgs d l.code e he
      · rcases hq : (runLanguages wb cfgs d t).2 with msg | ps
        all_goals simp only [hq] at he
        all_goals rcases List.mem_append.mp he with h1 | h2
        · exact processLanguage_events wb cfgs d l.code e h1
        · exact ih e h2
        · exact processLanguage_events wb cfgs d l.code e h1
        · exact ih e h2

theorem runLanguages_ok_length (wb : Workbook) (cfgs : List SheetConfig) (d : FPath) :
    ∀ (langs : List LanguageConfig) (ps : List FPath),
      (runLanguages wb cfgs d langs).2 = Except.ok ps → ps.length = langs.length := by
  intro langs
  induction langs with
  | nil =>
      intro ps h
      simp [runLanguages] at h
      simp [← h]
  | cons l t ih =>
      intro ps h
      rw [runLanguages] at h
      rcases hr : (processLanguage wb cfgs d l.code).2 with msg | p
      all_goals simp only [hr] at h
      · simp at h
      · rcases hq : (runLanguages wb cfgs d t).2 with msg | ps'
        all_goals simp only [hq] at h
        · simp at h
        · simp at h
          rw [← h]
          simp [ih ps' hq]

theorem lookup_mem {α β : Type} [BEq α] [LawfulBEq α] {k : α} {v : β} :
    ∀ {m : List (α × β)}, List.lookup k m = some v → (k, v) ∈ m := by
  intro m
  induction m with
  | nil => intro h; simp [List.lookup] at h
  | cons p t ih =>
      obtain ⟨pk, pv⟩ := p
      intro h
      rw [List.lookup] at h
      by_cases hk : (k == pk) = true
      · simp only [hk] at h
        have hkv : pv = v := by injection h
        have hke : k = pk := eq_of_beq hk
        subst hkv; subst hke
        exact List.mem_cons_self _ _
      · have hk' : (k == pk) = false := by simpa using hk
        simp only [hk'] at h
        exact List.mem_cons_of_mem _ (ih h)

theorem imInsert_of_not_mem {α β : Type} [BEq α] (m : List (α × β)) (k : α) (v : β)
    (h : ∀ p ∈ m, ¬(p.1 == k) = true) : imInsert m k v = m ++ [(k, v)] := by
  rw [imInsert, if_neg]
  intro hc
  rcases List.any_eq_true.mp hc with ⟨p, hp, hpk⟩
  exact h p hp hpk

theorem foldl_imInsert_append {α β : Type} [BEq α] [LawfulBEq α] :
    ∀ (l acc : List (α × β)),
      (l.map Prod.fst).Nodup → (∀ p ∈ acc, ∀ q ∈ l, ¬(p.1 == q.1) = true) →
      l.foldl (fun m kv => imInsert m kv.1 kv.2) acc = acc ++ l := by
  intro l
  induction l with
  | nil => intro acc _ _; simp
  | cons kv t ih =>
      intro acc hnd hdis
      simp only [List.map_cons] at hnd
      have hnd' := List.nodup_cons.mp hnd
      rw [List.foldl_cons]
      have hins : imInsert acc kv.1 kv.2 = acc ++ [kv] := by
        apply imInsert_of_not_mem
        intro p hp
        exact hdis p hp kv (by simp)
      rw [hins, ih (acc ++ [kv]) hnd'.2 ?_]
      · simp
      · intro p hp q hq
        rcases List.mem_append.mp hp with h1 | h2
        · exact hdis p h1 q (by simp [hq])
        · simp at h2
          subst h2
          intro hbeq
          exact hnd'.1 (by rw [eq_of_beq hbeq]; exact List.mem_map_of_mem Prod.fst hq)

theorem imRefold_eq_self (l : Table) (h : (l.map Prod.fst).Nodup) : imRefold l = l := by
  have := foldl_imInsert_append l [] h (by intro p hp; simp at hp)
  simpa [imRefold] using this

theorem readLang_fold :
    ∀ (rows : List (List Cell)) (acc : List LanguageConfig),
      (∀ c ∈ acc, c.code ≠ "") →
      ∀ c ∈ rows.foldl readLangRow acc, c.code ≠ "" := by
  intro rows
  induction rows with
  | nil => intro acc h c hc; exact h c hc
  | cons row t ih =>
      intro acc h c hc
      rw [List.foldl_cons] at hc
      refine ih (readLangRow acc row) ?_ c hc
      intro x hx
      rcases row with _ | ⟨cell, rrow⟩
      · exact h x hx
      · rw [readLangRow] at hx
        by_cases he : (get_cell_string cell).isEmpty
        · rw [if_pos he] at hx
          exact h x hx
        · rw [if_neg he] at hx
          rcases List.mem_append.mp hx with h1 | h2
          · exact h x h1
          · simp at h2
            rw [h2]
            intro hcontra
            exact he ((String.isEmpty_iff _).mpr hcontra)

theorem readSheet_fold :
    ∀ (rows : List (List Cell)) (acc : List SheetConfig),
      rows.foldl readSheetRow acc =
        acc ++ (rows.filter (fun r => decide (0 < r.length))).map parseSheetRow := by
  intro rows
  induction rows with
  | nil => intro acc; simp
  | cons row t ih =>
      intro acc
      rw [List.foldl_cons, readSheetRow]
      by_cases h : row.length < 1
      · rw [if_pos h, ih, List.filter_cons_of_neg (by simp only [decide_eq_true_eq]; omega)]
      · rw [if_neg h, ih, List.filter_cons_of_pos (by simp only [decide_eq_true_eq]; omega)]
        simp

theorem finalFS_progress (evs : List Event) (h : ∀ e ∈ evs, isProgress e = true) :
    finalFS evs = emptyFS :=
  applyEvents_progress evs emptyFS h

theorem preludeEvents_progress (cfg : RunConfig) :
    ∀ e ∈ preludeEvents cfg, isProgress e = true := by
  intro e he
  simp [preludeEvents] at he
  rcases he with h | h | h
  all_goals rw [h]; rfl

theorem finalFS_abort (cfg : RunConfig) (lang_configs : List LanguageConfig)
    (sheet_configs : List SheetConfig) (runEvs : List Event)
    (hrun : ∀ e ∈ runEvs, evUnder (outputDirOf cfg) e = true) :
    finalFS (preludeEvents cfg ++ setupEvents cfg lang_configs sheet_configs ++ runEvs ++
      [Event.removeDir (outputDirOf cfg)]) = emptyFS := by
  rw [finalFS, applyEvents_append, applyEvents_append, applyEvents_append]
  rw [applyEvents_progress (preludeEvents cfg) emptyFS (preludeEvents_progress cfg)]
  have hsetup : applyEvents emptyFS (setupEvents cfg lang_configs sheet_configs) =
      ⟨[outputDirOf cfg], [], []⟩ := by
    simp [setupEvents, applyEvents, applyEvent, emptyFS]
  rw [hsetup]
  obtain ⟨h1, h2, h3⟩ :=
    applyEvents_under (outputDirOf cfg) runEvs ⟨[outputDirOf cfg], [], []⟩ hrun
  have hfil : ∀ f ∈ (applyEvents ⟨[outputDirOf cfg], [], []⟩ runEvs).files,
      f.1.take (outputDirOf cfg).length = outputDirOf cfg := by
    intro f hf
    rcases h3 f hf with hmem | hund
    · simp at hmem
    · exact hund
  rw [applyEvents_cons, applyEvents_nil]
  rw [show applyEvent (applyEvents ⟨[outputDirOf cfg], [], []⟩ runEvs)
        (Event.removeDir (outputDirOf cfg)) =
      { applyEvents ⟨[outputDirOf cfg], [], []⟩ runEvs with
        dirs := (applyEvents ⟨[outputDirOf cfg], [], []⟩ runEvs).dirs.filter
          (fun x => !(x.take (outputDirOf cfg).length == outputDirOf cfg)),
        files := (applyEvents ⟨[outputDirOf cfg], [], []⟩ runEvs).files.filter
          (fun f => !(f.1.take (outputDirOf cfg).length == outputDirOf cfg)) } from rfl]
  rw [h1]
  have hd : ([outputDirOf cfg] : List FPath).filter
      (fun x => !(x.take (outputDirOf cfg).length == outputDirOf cfg)) = [] := by
    simp [List.take_length]
  have hf2 : (applyEvents ⟨[outputDirOf cfg], [], []⟩ runEvs).files.filter
      (fun f => !(f.1.take (outputDirOf cfg).length == outputDirOf cfg)) = [] := by
    rw [List.filter_eq_nil_iff]
    intro f hf
    simp [hfil f hf]
  rw [hd, hf2]
  simp [emptyFS, h2]

/-- C2: `check_placeholders` succeeds exactly when a left-to-right scan with
a depth counter (incremented at an opening brace, decremented at a closing
brace) never drops below zero and ends at zero; in particular it fails on
"\x7ba", "a\x7d" and "\x7b\x7ba\x7d", succeeds on "\x7ba\x7d",
"\x7b\x7ba\x7d\x7bb\x7d\x7d" and the empty string, and its verdict depends
only on the brace characters of the input, never on any other character. -/
theorem C2_placeholder_balance :
    (∀ s : String, check_placeholders s = Except.ok () ↔
       ((∀ n : ℕ, 0 ≤ braceDepth (s.data.take n)) ∧ braceDepth s.data = 0)) ∧
    exceptOk (check_placeholders "\x7ba") = false ∧
    exceptOk (check_placeholders "a\x7d") = false ∧
    exceptOk (check_placeholders "\x7b\x7ba\x7d") = false ∧
    exceptOk (check_placeholders "\x7ba\x7d") = true ∧
    exceptOk (check_placeholders "\x7b\x7ba\x7d\x7bb\x7d\x7d") = true ∧
    exceptOk (check_placeholders "") = true ∧
    (∀ s : String, exceptOk (check_placeholders (String.mk (s.data.filter isBraceChar))) =
       exceptOk (check_placeholders s)) := by
  refine ⟨?_, by decide, by decide, by decide, by decide, by decide, by decide, ?_⟩
  · intro s
    rw [← exceptOk_iff, check_placeholders, cpGo_isOk_iff]
    simp
  · intro s
    rw [check_placeholders, check_placeholders]
    have h := cpGo_filter (String.mk (s.data.filter isBraceChar)) s s.data 0
    simpa using h

/-- C2 witness: the characterization applied to the empty string. -/
theorem C2_placeholder_balance_witness : check_placeholders "" = Except.ok () :=
  (C2_placeholder_balance.1 "").mpr ⟨fun n => by simp [braceDepth], by simp [braceDepth]⟩

/-- C3 counterexample: a sheet-registry row whose first cell normalizes to
the empty string is not skipped; `read_sheet_configs_from_excel` produces a
`SheetConfig` with an empty name from it. -/
theorem C3_counterexample :
    read_sheet_configs_from_excel wbC3 = Except.ok [⟨"", some "root"⟩] := by decide

/-- C3 (amended): the language reader skips rows whose first cell normalizes
to empty (so no `LanguageConfig` has an empty code), but the sheet reader
skips only rows with no cells and parses every other row, including rows
whose first cell normalizes to the empty string. -/
theorem C3_registry_skip_amended :
    (∀ (wb : Workbook) (cfgs : List LanguageConfig),
       read_language_configs_from_excel wb = Except.ok cfgs → ∀ c ∈ cfgs, c.code ≠ "") ∧
    (∀ (wb : Workbook) (rows : List (List Cell)),
       worksheetRange wb "导出sheet管理" = some (Except.ok rows) →
       read_sheet_configs_from_excel wb = Except.ok
         ((rows.filter (fun r => decide (0 < r.length))).map parseSheetRow)) := by
  constructor
  · intro wb cfgs h c hc
    rw [read_language_configs_from_excel] at h
    rcases hw : worksheetRange wb "导出语言管理" with _ | er
    · simp only [hw] at h
      exact absurd h (by simp)
    · rcases er with msg | rows
      · simp only [hw] at h
        exact absurd h (by simp)
      · simp only [hw] at h
        have hrows : rows.foldl readLangRow [] = cfgs := by injection h
        rw [← hrows] at hc
        exact readLang_fold rows [] (by intro x hx; simp at hx) c hc
  · intro wb rows hw
    rw [read_sheet_configs_from_excel]
    simp only [hw]
    rw [readSheet_fold rows []]
    simp

/-- C3 witness: the amended statement applied to the concrete workbooks. -/
theorem C3_registry_skip_amended_witness :
    (∀ c ∈ [LanguageConfig.mk "en", LanguageConfig.mk "fr"], c.code ≠ "") ∧
    read_sheet_configs_from_excel wbC3 = Except.ok
      (([[Cell.Empty, Cell.String "root"]].filter (fun r => decide (0 < r.length))).map
        parseSheetRow) :=
  ⟨C3_registry_skip_amended.1 wbC1 [⟨"en"⟩, ⟨"fr"⟩] (by decide),
   C3_registry_skip_amended.2 wbC3 [[Cell.Empty, Cell.String "root"]] (by decide)⟩

/-- C5: a registry row's export mode is root exactly when the row has a
second column whose normalized value is the exact string "root"; a missing
second column or one normalizing to a whitespace-only string yields an
absent `sheet_type` (nested mode); any other non-blank value is stored
verbatim and, unless it is "root", also selects nested. -/
theorem C5_mode_selection :
    ∀ row : List Cell,
      ((isRoot (parseSheetRow row) = true) ↔
        (1 < row.length ∧ get_cell_string (row.getD 1 Cell.Empty) = "root")) ∧
      ((row.length ≤ 1 ∨ (rustTrim (get_cell_string (row.getD 1 Cell.Empty))).isEmpty = true) →
        (parseSheetRow row).sheet_type = none) ∧
      (1 < row.length → (rustTrim (get_cell_string (row.getD 1 Cell.Empty))).isEmpty = false →
        (parseSheetRow row).sheet_type = some (get_cell_string (row.getD 1 Cell.Empty))) := by
  intro row
  by_cases hl : 1 < row.length
  · by_cases hb : (rustTrim (get_cell_string (row.getD 1 Cell.Empty))).isEmpty = true
    · have hst : (parseSheetRow row).sheet_type = none := by
        have hb2 := hb
        rw [List.getD_eq_getElem row Cell.Empty hl] at hb2
        simp [parseSheetRow, hl, hb2]
      refine ⟨?_, fun _ => hst, fun _ hb' => by rw [hb] at hb'; cases hb'⟩
      constructor
      · intro hr
        rw [isRoot, hst] at hr
        exact absurd hr (by decide)
      · rintro ⟨-, hroot⟩
        rw [hroot] at hb
        exact absurd hb (by decide)
    · have hst : (parseSheetRow row).sheet_type =
          some (get_cell_string (row.getD 1 Cell.Empty)) := by
        have hb2 := hb
        rw [List.getD_eq_getElem row Cell.Empty hl] at hb2
        simp [parseSheetRow, hl, hb2]
      refine ⟨?_, ?_, fun _ _ => hst⟩
      · rw [isRoot, hst]
        constructor
        · intro hr
          rw [beq_iff_eq] at hr
          exact ⟨hl, Option.some.inj hr⟩
        · rintro ⟨-, hroot⟩
          rw [beq_iff_eq, hroot]
      · rintro (h1 | h2)
        · omega
        · exact absurd h2 hb
  · have hst : (parseSheetRow row).sheet_type = none := by
      simp [parseSheetRow, hl]
    refine ⟨?_, fun _ => hst, fun h1 _ => absurd h1 hl⟩
    rw [isRoot, hst]
    constructor
    · intro hr
      exact absurd hr (by decide)
    · rintro ⟨h1, -⟩; exact absurd h1 hl

/-- C5 witness: a non-blank non-"root" marker selects nested and is kept
verbatim; a blank marker yields an absent mode. -/
theorem C5_mode_selection_witness :
    (parseSheetRow [Cell.String "A", Cell.String "x"]).sheet_type = some "x" ∧
    (parseSheetRow [Cell.String "A", Cell.String " "]).sheet_type = none :=
  ⟨(C5_mode_selection [Cell.String "A", Cell.String "x"]).2.2 (by decide) (by decide),
   (C5_mode_selection [Cell.String "A", Cell.String " "]).2.1 (Or.inr (by decide))⟩

/-- C7: a data row whose first column normalizes to empty is skipped
entirely — the scan result (events and table alike) is unchanged, so no key
is inserted and no warning is emitted; otherwise the inserted value is the
resolved language column's cell, or the empty string when the row is
shorter than that column index, with an empty-value warning exactly when
the value is empty. -/
theorem C7_row_handling :
    (∀ (n c : String) (col : ℕ) (temp : Table) (i : ℕ) (row : List Cell)
       (rest : List (ℕ × List Cell)),
       rowKey row = "" →
       processSheetRows n c col temp ((i, row) :: rest) = processSheetRows n c col temp rest) ∧
    (∀ (n c : String) (col : ℕ) (temp : Table) (i : ℕ) (row : List Cell),
       rowKey row ≠ "" → check_placeholders (rowValue col row) = Except.ok () →
       processSheetRows n c col temp [(i, row)] =
         (rowWarns n i c (rowKey row) (rowValue col row),
          Except.ok (imInsert temp (rowKey row) (rowValue col row)))) ∧
    (∀ (col : ℕ) (row : List Cell),
       rowValue col row =
         if col < row.length then get_cell_string (row.getD col Cell.Empty) else "") := by
  refine ⟨?_, ?_, fun col row => rfl⟩
  · intro n c col temp i row rest hk
    rw [processSheetRows, if_pos (by rw [hk]; rfl)]
  · intro n c col temp i row hk hcp
    rw [processSheetRows, if_neg (fun hcontra => hk ((String.isEmpty_iff _).mp hcontra))]
    simp only [hcp]
    simp [processSheetRows]

/-- C7 witness: a row shorter than the resolved column index yields the
empty-string value, one warning, and the key inserted with that value. -/
theorem C7_row_handling_witness :
    processSheetRows "S" "en" 5 [] [(1, [Cell.String "k"])] =
      ([Event.progress (emptyWarnMsg "S" 2 "en" "k") LogType.Warning],
       Except.ok [("k", "")]) :=
  (C7_row_handling.2.1 "S" "en" 5 [] 1 [Cell.String "k"] (by decide) (by decide)).trans
    (by decide)

/-- C9: a floating-point cell is rendered as a serial date (epoch
1899-12-30, `YYYY-MM-DD`) exactly when its value lies strictly between
30000 and 70000; otherwise as the integer string when it has no fractional
part (denominator 1), and as the default decimal rendering otherwise.  The
concrete dates pin the epoch and format: serial 45000 is 2023-03-15, serial
30001 is 1982-02-19, and 60000.5 truncates to serial 60000 = 2064-04-08;
the boundary values 30000 and 70000 themselves are not dates. -/
theorem C9_float_rendering :
    (∀ q : ℚ, 30000 < q → q < 70000 →
       get_cell_string (Cell.Float q) = serialDateString (ratTrunc q)) ∧
    (∀ q : ℚ, ¬(30000 < q ∧ q < 70000) → q.den = 1 →
       get_cell_string (Cell.Float q) = toString q.num) ∧
    (∀ q : ℚ, ¬(30000 < q ∧ q < 70000) → q.den ≠ 1 →
       get_cell_string (Cell.Float q) = float_to_string q) ∧
    get_cell_string (Cell.Float 45000) = "2023-03-15" ∧
    get_cell_string (Cell.Float 30001) = "1982-02-19" ∧
    get_cell_string (Cell.Float (Rat.divInt 120001 2)) = "2064-04-08" ∧
    get_cell_string (Cell.Float 30000) = "30000" ∧
    get_cell_string (Cell.Float 70000) = "70000" ∧
    get_cell_string (Cell.Float (Rat.divInt 5 2)) = float_to_string (Rat.divInt 5 2) := by
  refine ⟨?_, ?_, ?_, by decide, by decide, by decide, by decide, by decide, by decide⟩
  · intro q h1 h2
    simp [get_cell_string, h1, h2]
  · intro q h hd
    simp [get_cell_string, h, hd]
  · intro q h hd
    simp [get_cell_string, h, hd]

/-- C9 witness: the date branch applied at serial 45000. -/
theorem C9_float_rendering_witness :
    get_cell_string (Cell.Float 45000) = serialDateString (ratTrunc 45000) :=
  C9_float_rendering.1 45000 (by norm_num) (by norm_num)

/-- C10: a registered sheet whose table is empty contributes nothing to the
document in root mode and an empty object under its name in nested mode;
and a sheet whose header matches the language but all of whose data rows
are skipped does produce the empty table, registered under its name. -/
theorem C10_empty_sheet_merge :
    (∀ (m : SheetDataMap) (doc : ExportDocument) (cfg : SheetConfig),
       List.lookup cfg.name m = some [] →
       mergeStep m doc cfg = if isRoot cfg then doc else imInsert doc cfg.name (JValue.jobj [])) ∧
    processSheetForLang wbC10 "en" [] ⟨"S", none⟩ = ([], Except.ok [("S", [])]) ∧
    processSheetForLang wbC10 "en" [] ⟨"S", some "root"⟩ = ([], Except.ok [("S", [])]) ∧
    mergeSheets [⟨"S", none⟩] [("S", [])] = [("S", JValue.jobj [])] ∧
    mergeSheets [⟨"S", some "root"⟩] [("S", [])] = [] := by
  refine ⟨?_, by decide, by decide, by decide, by decide⟩
  intro m doc cfg h
  rw [mergeStep]
  simp only [h]
  by_cases hr : isRoot cfg = true
  · simp [hr]
  · simp only [Bool.not_eq_true] at hr
    simp [hr]

/-- C10 witness: the merge step applied to a concrete empty nested sheet. -/
theorem C10_empty_sheet_merge_witness :
    mergeStep [("S", ([] : Table))] [] ⟨"S", none⟩ =
      (if isRoot ⟨"S", none⟩ then ([] : ExportDocument)
       else imInsert [] "S" (JValue.jobj [])) :=
  C10_empty_sheet_merge.1 [("S", [])] [] ⟨"S", none⟩ (by decide)

/-- C4: for tables with unique keys (as the scan always produces), the
source merge equals the spec's description — iterate sheets in registry
order, root-mode sheets flat-merged into the top level, any other mode
placed as an object under the sheet's name; concretely, of two root-mode
sheets both defining "x" the later one (registry order) wins, and a
root/nested pair lands at top level and under the sheet name
respectively. -/
theorem C4_merge_semantics :
    (∀ (cfgs : List SheetConfig) (m : SheetDataMap),
       (∀ p ∈ m, (p.2.map Prod.fst).Nodup) →
       mergeSheets cfgs m = specMergeDoc cfgs m) ∧
    List.lookup "x" (mergeSheets [⟨"A", some "root"⟩, ⟨"B", some "root"⟩]
      [("A", [("x", "1")]), ("B", [("x", "2")])]) = some (JValue.jstr "2") ∧
    mergeSheets [⟨"R", some "root"⟩, ⟨"N", some "x"⟩]
      [("R", [("k", "v1")]), ("N", [("k", "v2")])] =
      [("k", JValue.jstr "v1"), ("N", JValue.jobj [("k", "v2")])] := by
  refine ⟨?_, by decide, by decide⟩
  intro cfgs m hm
  have hstep : mergeStep m = specMergeStep m := by
    funext doc cfg
    rw [mergeStep, specMergeStep]
    rcases hl : List.lookup cfg.name m with _ | table
    all_goals simp only [hl]
    · have hnd : (table.map Prod.fst).Nodup := by
        have := hm (cfg.name, table) (lookup_mem hl)
        simpa using this
      by_cases hr : (cfg.sheet_type == some "root") = true
      · simp only [modeOf, isRoot, hr, if_true]
      · have hr' : (cfg.sheet_type == some "root") = false := by simpa using hr
        simp only [modeOf, isRoot, hr', Bool.false_eq_true, if_false]
        have hrf : List.foldl (fun obj kv => imInsert obj kv.1 kv.2) [] table = table :=
          imRefold_eq_self table hnd
        rw [hrf]
  rw [mergeSheets, specMergeDoc, hstep]

/-- C4 witness: the merge equivalence applied to a concrete registry. -/
theorem C4_merge_semantics_witness :
    mergeSheets [⟨"A", some "root"⟩] [("A", [("x", "1")])] =
      specMergeDoc [⟨"A", some "root"⟩] [("A", [("x", "1")])] :=
  C4_merge_semantics.1 [⟨"A", some "root"⟩] [("A", [("x", "1")])] (by decide)

/-- C6: a workbook missing either control sheet by its fixed name makes the
run fail with the missing-sheet error, and the final disk state is empty —
in particular no output directory was created. -/
theorem C6_missing_control_sheet :
    (∀ (cfg : RunConfig) (wb : Workbook),
       cfg.fileExists = true → cfg.openOk = true →
       worksheetRange wb "导出语言管理" = none →
       (convert_excel_to_json cfg wb).2 =
         Except.error "读取语言配置失败: 未找到工作表: 导出语言管理" ∧
       finalFS (convert_excel_to_json cfg wb).1 = emptyFS) ∧
    (∀ (cfg : RunConfig) (wb : Workbook) (rows : List (List Cell)),
       cfg.fileExists = true → cfg.openOk = true →
       worksheetRange wb "导出语言管理" = some (Except.ok rows) →
       worksheetRange wb "导出sheet管理" = none →
       (convert_excel_to_json cfg wb).2 = Except.error "未找到工作表: 导出sheet管理" ∧
       finalFS (convert_excel_to_json cfg wb).1 = emptyFS) := by
  constructor
  · intro cfg wb hf ho hw
    have hread : read_language_configs_from_excel wb =
        Except.error ("未找到工作表: " ++ "导出语言管理") := by
      rw [read_language_configs_from_excel]
      simp only [hw]
    have hconv : convert_excel_to_json cfg wb =
        (preludeEvents cfg,
         Except.error ("读取语言配置失败: " ++ ("未找到工作表: " ++ "导出语言管理"))) := by
      rw [convert_excel_to_json, if_neg (by simp [hf]), if_neg (by simp [ho])]
      simp only [hread]
    rw [hconv]
    refine ⟨?_, finalFS_progress _ (preludeEvents_progress cfg)⟩
    show Except.error ("读取语言配置失败: " ++ ("未找到工作表: " ++ "导出语言管理")) =
      Except.error "读取语言配置失败: 未找到工作表: 导出语言管理"
    decide
  · intro cfg wb rows hf ho hw1 hw2
    have hread1 : read_language_configs_from_excel wb =
        Except.ok (rows.foldl readLangRow []) := by
      rw [read_language_configs_from_excel]
      simp only [hw1]
    have hread2 : read_sheet_configs_from_excel wb =
        Except.error ("未找到工作表: " ++ "导出sheet管理") := by
      rw [read_sheet_configs_from_excel]
      simp only [hw2]
    have hconv : convert_excel_to_json cfg wb =
        (preludeEvents cfg, Except.error ("未找到工作表: " ++ "导出sheet管理")) := by
      rw [convert_excel_to_json, if_neg (by simp [hf]), if_neg (by simp [ho])]
      simp only [hread1, hread2]
    rw [hconv]
    refine ⟨?_, finalFS_progress _ (preludeEvents_progress cfg)⟩
    show Except.error ("未找到工作表: " ++ "导出sheet管理") =
      Except.error "未找到工作表: 导出sheet管理"
    decide

/-- C6 witness: the missing-language-registry case on a workbook with no
sheets at all. -/
theorem C6_missing_control_sheet_witness :
    (convert_excel_to_json cfgT ⟨[]⟩).2 =
      Except.error "读取语言配置失败: 未找到工作表: 导出语言管理" ∧
    finalFS (convert_excel_to_json cfgT ⟨[]⟩).1 = emptyFS :=
  C6_missing_control_sheet.1 cfgT ⟨[]⟩ (by decide) (by decide) (by decide)

/-- C1 counterexample: in the two-language run `wbC1`, the claim-stated
ordering fails — `en.json` is written although a value for the later
language `fr` fails placeholder validation (the run returns that validation
error and a file-write event occurs in its trace); the rollback itself does
hold (the final disk state is empty). -/
theorem C1_counterexample :
    (convert_excel_to_json cfgT wbC1).2 =
      Except.error (abortMsg "S" 2 "g" ("oops" ++ String.mk [braceOpen])
        (cpErrMsg ("oops" ++ String.mk [braceOpen]))) ∧
    hasWriteEvent (convert_excel_to_json cfgT wbC1).1 = true ∧
    finalFS (convert_excel_to_json cfgT wbC1).1 = emptyFS := by
  refine ⟨by decide, by decide, by decide⟩

/-- C1 (amended): whenever the run returns an error — in particular on any
placeholder-validation failure — the final disk state holds neither the
output directory nor any file nor any archive; files of earlier languages
may however be written (and then discarded) before a later language's
values are validated. -/
theorem C1_abort_discards_output :
    ∀ (cfg : RunConfig) (wb : Workbook) (msg : String),
      (convert_excel_to_json cfg wb).2 = Except.error msg →
      finalFS (convert_excel_to_json cfg wb).1 = emptyFS := by
  intro cfg wb msg h
  by_cases hf : cfg.fileExists = false
  · rw [convert_excel_to_json, if_pos hf]
    apply finalFS_progress
    intro e he
    simp at he
    rcases he with rfl | rfl
    · rfl
    · rfl
  · by_cases ho : cfg.openOk = false
    · rw [convert_excel_to_json, if_neg hf, if_pos ho]
      apply finalFS_progress
      intro e he
      simp at he
      rcases he with rfl | rfl
      · rfl
      · rfl
    · rcases hl : read_language_configs_from_excel wb with e1 | langs
      · rw [convert_excel_to_json, if_neg hf, if_neg ho]
        simp only [hl]
        exact finalFS_progress _ (preludeEvents_progress cfg)
      · rcases hs : read_sheet_configs_from_excel wb with e2 | cfgs2
        · rw [convert_excel_to_json, if_neg hf, if_neg ho]
          simp only [hl, hs]
          exact finalFS_progress _ (preludeEvents_progress cfg)
        · rcases hr : (runLanguages wb cfgs2 (outputDirOf cfg) langs).2 with m | ps
          · rw [convert_excel_to_json, if_neg hf, if_neg ho]
            simp only [hl, hs, hr]
            exact finalFS_abort cfg langs cfgs2 _
              (runLanguages_events wb cfgs2 (outputDirOf cfg) langs)
          · exfalso
            rw [convert_excel_to_json, if_neg hf, if_neg ho] at h
            simp only [hl, hs, hr] at h
            exact absurd h (by simp)

/-- C1 witness: the discard property applied to the aborting run `wbC1`. -/
theorem C1_abort_discards_output_witness :
    finalFS (convert_excel_to_json cfgT wbC1).1 = emptyFS :=
  C1_abort_discards_output cfgT wbC1
    (abortMsg "S" 2 "g" ("oops" ++ String.mk [braceOpen])
      (cpErrMsg ("oops" ++ String.mk [braceOpen]))) (by decide)

/-- C8 counterexample: with the duplicate language registry `en`, `en` the
summary reports 2 exported language files, while the produced archive
contains exactly one file (`out_t/en.json`) — repeated codes inflate the
stated count. -/
theorem C8_counterexample :
    (convert_excel_to_json cfgT wbC8).2 = Except.ok (mkSummary 2 ["p", "out_t.zip"]) ∧
    (finalFS (convert_excel_to_json cfgT wbC8).1).archives =
      [(["p", "out_t.zip"], ["out_t/en.json"])] := by
  refine ⟨by decide, by decide⟩

/-- C8 (amended): on success, the summary states the archive path and a
count equal to the number of language-registry rows (one file write per
row); with duplicate codes this count can exceed the number of distinct
files in the archive. -/
theorem C8_summary_count_amended :
    ∀ (cfg : RunConfig) (wb : Workbook) (langs : List LanguageConfig) (s : String),
      read_language_configs_from_excel wb = Except.ok langs →
      (convert_excel_to_json cfg wb).2 = Except.ok s →
      s = mkSummary langs.length (zipPathOf cfg) := by
  intro cfg wb langs s hl h
  by_cases hf : cfg.fileExists = false
  · rw [convert_excel_to_json, if_pos hf] at h
    exact absurd h (by simp)
  · by_cases ho : cfg.openOk = false
    · rw [convert_excel_to_json, if_neg hf, if_pos ho] at h
      exact absurd h (by simp)
    · rcases hs : read_sheet_configs_from_excel wb with e2 | cfgs2
      · rw [convert_excel_to_json, if_neg hf, if_neg ho] at h
        simp only [hl, hs] at h
        exact absurd h (by simp)
      · rcases hr : (runLanguages wb cfgs2 (outputDirOf cfg) langs).2 with m | ps
        · rw [convert_excel_to_json, if_neg hf, if_neg ho] at h
          simp only [hl, hs, hr] at h
          exact absurd h (by simp)
        · rw [convert_excel_to_json, if_neg hf, if_neg ho] at h
          simp only [hl, hs, hr] at h
          have hlen := runLanguages_ok_length wb cfgs2 (outputDirOf cfg) langs ps hr
          have hsum : mkSummary ps.length (zipPathOf cfg) = s := by injection h
          rw [← hsum, hlen]

/-- C8 witness: the amended count statement applied to the duplicate-code
run `wbC8`. -/
theorem C8_summary_count_amended_witness :
    mkSummary 2 ["p", "out_t.zip"] =
      mkSummary ([LanguageConfig.mk "en", LanguageConfig.mk "en"] : List LanguageConfig).length
        (zipPathOf cfgT) :=
  C8_summary_count_amended cfgT wbC8 [⟨"en"⟩, ⟨"en"⟩] (mkSummary 2 ["p", "out_t.zip"])
    (by decide) (by decide)
